import Mathlib

/-!
# Verification of the Memory-Allocator repository (src/src/allocator.c)

Shallow embedding of the sbrk-based first-fit allocator.

Modelling decisions, recorded once here:

* The C code (LP64) has `struct Block { size_t size; int free; struct Block *next; }`
  with `__attribute__((aligned(16)))`, hence `sizeof(Block) = 32`.
* `size_t` arithmetic is modelled as `Nat` arithmetic modulo `W = 2^64`
  (`addW`, `subW`); size-valued comparisons are on the already-reduced values,
  exactly as on the unsigned machine values.
* The `next`-linked chain is modelled as a `List Block`; list order is chain
  order.  Each `Block` carries its own address (`addr`), mirroring the fact
  that a C block's address is its identity; `split` computes the new block's
  address by the same pointer arithmetic as the source.
* `sbrk` is modelled by the current program break `brk` carried in the state,
  together with a boolean `growOk` deciding whether a growth request succeeds
  (sbrk returning `(void * ) -1` on failure).  `sbrk(0)` is the pure query
  returning `brk`.
* `mfree` returns `Option AllocState`: `none` marks the one situation whose C
  behaviour is undefined rather than a state change — all validation checks
  passed but the presumed header `ptr - ALIGNED_METADATA_SIZE` is not the
  address of any tracked block, so the C code reads and writes untracked
  memory (claim C10 is about exactly this).
-/

/-- `ALIGNMENT` from allocator.c: blocks aligned to 16-byte boundaries. -/
def ALIGNMENT : Nat := 16

/-- `sizeof(Block)` on LP64 with `__attribute__((aligned(16)))`:
8 (size_t) + 4 (int) + 4 (padding) + 8 (pointer) rounded to 32. -/
def sizeofBlock : Nat := 32

/-- `ALIGNED_METADATA_SIZE = (sizeof(Block) + (ALIGNMENT-1)) & ~(ALIGNMENT-1)`. -/
def ALIGNED_METADATA_SIZE : Nat :=
  (sizeofBlock + (ALIGNMENT - 1)) / ALIGNMENT * ALIGNMENT

/-- `MIN_BLOCK_SIZE = ALIGNED_METADATA_SIZE + ALIGNMENT`. -/
def MIN_BLOCK_SIZE : Nat := ALIGNED_METADATA_SIZE + ALIGNMENT

/-- `2^64`, the modulus of `size_t` arithmetic. -/
def W : Nat := 2 ^ 64

/-- `size_t` addition. -/
def addW (a b : Nat) : Nat := (a + b) % W

/-- `size_t` subtraction (two's-complement wraparound); correct for `a < W`. -/
def subW (a b : Nat) : Nat := (a + (W - b % W)) % W

/-- `align`: `(size + ALIGNMENT - 1) & ~(ALIGNMENT - 1)` in `size_t`
arithmetic; `x & ~15 = x / 16 * 16` for a 64-bit value `x`. -/
def align (size : Nat) : Nat :=
  (size + (ALIGNMENT - 1)) % W / ALIGNMENT * ALIGNMENT

/-- A `Block` header: its own address plus the `size` and `free` fields.
The `next` pointer is represented by list order. -/
structure Block where
  addr : Nat
  size : Nat
  free : Bool
deriving Repr, DecidableEq

/-- Whole-allocator state: the chain (`head` is the list head), `heap_start`,
and the current program break (what `sbrk(0)` returns). -/
structure AllocState where
  blocks : List Block
  heap_start : Nat
  brk : Nat
deriving Repr, DecidableEq

/-- `is_aligned`: `((uintptr_t)ptr % ALIGNMENT) == 0`. -/
def is_aligned (ptr : Nat) : Bool := ptr % ALIGNMENT == 0

/-- `split(block, size)`: the block(s) that replace `block` in the chain.
If the block is too small to split it is only marked allocated; otherwise it
is resized to `size` and a new free block of the leftover bytes is placed at
`(char * )block + ALIGNED_METADATA_SIZE + size`, inheriting the old `next`
(list position just after the resized block). -/
def split (block : Block) (size : Nat) : List Block :=
  if block.size < addW size MIN_BLOCK_SIZE then
    [{ block with free := false }]
  else
    let leftover_size := subW (subW block.size size) ALIGNED_METADATA_SIZE
    let new_block : Block :=
      { addr := block.addr + ALIGNED_METADATA_SIZE + size
        size := leftover_size
        free := true }
    [{ block with size := size, free := false }, new_block]

/-- The first-fit loop of `mallocate`: walk the chain; at the first block with
`curr->free && curr->size >= aligned_size`, splice in `split curr aligned_size`
and return the usable-region pointer.  `none` when no block fits. -/
def findAndSplit (blocks : List Block) (aligned_size : Nat) :
    Option (Nat × List Block) :=
  match blocks with
  | [] => none
  | b :: rest =>
    if b.free && decide (aligned_size ≤ b.size) then
      some (b.addr + ALIGNED_METADATA_SIZE, split b aligned_size ++ rest)
    else
      match findAndSplit rest aligned_size with
      | some (p, rest') => some (p, b :: rest')
      | none => none

/-- Result of one `mallocate` call: the returned pointer (`none` = NULL),
the state afterwards, and the byte count passed to `sbrk` when `sbrk` was
called with a positive delta (`none` when the growth primitive was not
invoked at all). -/
structure MallocateResult where
  ret : Option Nat
  state : AllocState
  sbrkCall : Option Nat
deriving Repr, DecidableEq

/-- `mallocate(size)`.  `growOk` tells whether an `sbrk(total_size)` call
succeeds.  The three paths of the source: empty chain (head == NULL),
first-fit hit, and grow-and-append; on `sbrk` failure the function returns
NULL leaving the chain untouched. -/
def mallocate (s : AllocState) (growOk : Bool) (size : Nat) : MallocateResult :=
  let aligned_size := align size
  let total_size := addW ALIGNED_METADATA_SIZE aligned_size
  if s.blocks.isEmpty then
    if growOk then
      let memory : Block := { addr := s.brk, size := aligned_size, free := false }
      { ret := some (s.brk + ALIGNED_METADATA_SIZE)
        state := { s with blocks := [memory], brk := s.brk + total_size }
        sbrkCall := some total_size }
    else
      { ret := none, state := s, sbrkCall := some total_size }
  else
    match findAndSplit s.blocks aligned_size with
    | some (ptr, blocks') =>
      { ret := some ptr
        state := { s with blocks := blocks' }
        sbrkCall := none }
    | none =>
      if growOk then
        let memory : Block := { addr := s.brk, size := aligned_size, free := false }
        { ret := some (s.brk + ALIGNED_METADATA_SIZE)
          state := { s with blocks := s.blocks ++ [memory], brk := s.brk + total_size }
          sbrkCall := some total_size }
      else
        { ret := none, state := s, sbrkCall := some total_size }

/-- The forward pass of `coalesce`:
`while (block->next && block->next->free) { block->size += AMS + next->size; skip }`. -/
def coalesceForward (b : Block) : List Block → Block × List Block
  | [] => (b, [])
  | n :: rest =>
    if n.free then
      coalesceForward
        { b with size := addW b.size (addW ALIGNED_METADATA_SIZE n.size) } rest
    else (b, n :: rest)

/-- `coalesce(block)` where `block` sits at position `i` of the chain: the
forward pass absorbs consecutive free successors, then a scan from `head`
finds the predecessor (the element before position `i`); if it is free the
block is merged into it.  Returns the new chain together with the position of
the surviving block (the C return value). -/
def coalesce (blocks : List Block) (i : Nat) : List Block × Nat :=
  match blocks.drop i with
  | [] => (blocks, i)
  | b :: rest =>
    let fwd := coalesceForward b rest
    let front := blocks.take i
    match front.getLast? with
    | some prev =>
      if prev.free then
        (front.dropLast ++
          { prev with size := addW prev.size (addW ALIGNED_METADATA_SIZE fwd.1.size) }
            :: fwd.2,
         i - 1)
      else (front ++ fwd.1 :: fwd.2, i)
    | none => (front ++ fwd.1 :: fwd.2, i)

/-- The scan locating a block header at address `a` (pointer equality
`curr == (Block * )((char * )ptr - AMS)` is address equality). -/
def findBlockIdx (blocks : List Block) (a : Nat) : Option Nat :=
  match blocks with
  | [] => none
  | b :: rest =>
    if b.addr == a then some 0
    else (findBlockIdx rest a).map (· + 1)

/-- `mfree(ptr)`: the four validation checks in source order, then mark free
and coalesce.  `none` = all checks passed but `ptr - ALIGNED_METADATA_SIZE`
is no tracked header, so the C code dereferences untracked memory
(undefined behaviour). -/
def mfree (s : AllocState) (ptr : Nat) : Option AllocState :=
  if ptr = 0 then some s
  else if ptr < s.heap_start || decide (s.brk ≤ ptr) then some s
  else if !is_aligned ptr then some s
  else
    match findBlockIdx s.blocks (ptr - ALIGNED_METADATA_SIZE) with
    | none => none
    | some i =>
      match s.blocks[i]? with
      | none => none
      | some b =>
        if b.free then some s
        else
          let blocks' := s.blocks.set i { b with free := true }
          some { s with blocks := (coalesce blocks' i).1 }

/-- The relation "not both free" between chain-adjacent blocks; the spec's
no-adjacent-free invariant is `List.Chain' BothNotFree`. -/
def BothNotFree (a b : Block) : Prop := (a.free && b.free) = false

instance BothNotFree.decidable : DecidableRel BothNotFree :=
  fun a b => Bool.decEq (a.free && b.free) false

/-- Boolean check that every block size is a multiple of the alignment unit. -/
def sizesAligned (blocks : List Block) : Bool :=
  blocks.all (fun b => b.size % ALIGNMENT == 0)

/-- Boolean check that some block's usable region starts at `ptr` and holds at
least `n` bytes. -/
def hasCapacityAt (blocks : List Block) (ptr n : Nat) : Bool :=
  blocks.any (fun b => b.addr + ALIGNED_METADATA_SIZE == ptr && decide (n ≤ b.size))

/-- Fold describing the forward pass of `coalesce` over the run of free
successors it absorbs: each step adds `headerSize + successor.size`. -/
def absorbAll (b : Block) (run : List Block) : Block :=
  run.foldl
    (fun acc c => { acc with size := addW acc.size (addW ALIGNED_METADATA_SIZE c.size) }) b

/-- Spec-side description of the chain after coalescing a freed block `b`
whose chain predecessors are `front` and successors `rest` (spec §4.1
`coalesce`): absorb every consecutive Free successor, then merge into the
immediate predecessor when that predecessor is Free. -/
def coalesceSpec (front : List Block) (b : Block) (rest : List Block) : List Block :=
  let merged := absorbAll { b with free := true } (rest.takeWhile (·.free))
  let rest' := rest.dropWhile (·.free)
  match front.getLast? with
  | some prev =>
    if prev.free then
      front.dropLast ++
        { prev with size := addW prev.size (addW ALIGNED_METADATA_SIZE merged.size) } :: rest'
    else front ++ merged :: rest'
  | none => front ++ merged :: rest'

/-- States reachable from a fresh program through the public operations.
The initial break is the 16-byte-aligned address `sbrk` reports first (the
spec's assumption that the growth primitive returns an aligned arena base);
`mfree` transitions exclude the undefined-behaviour case. -/
inductive Reachable : AllocState → Prop
  | init (hs : Nat) (ha : hs % ALIGNMENT = 0) :
      Reachable { blocks := [], heap_start := hs, brk := hs }
  | alloc {s : AllocState} (g : Bool) (n : Nat) :
      Reachable s → Reachable (mallocate s g n).state
  | free {s s' : AllocState} (p : Nat) :
      Reachable s → mfree s p = some s' → Reachable s'

/-! ## Arithmetic helper lemmas -/

lemma AMS_eq : ALIGNED_METADATA_SIZE = 32 := by
  simp [ALIGNED_METADATA_SIZE, sizeofBlock, ALIGNMENT]

lemma MIN_eq : MIN_BLOCK_SIZE = 48 := by
  simp [MIN_BLOCK_SIZE, AMS_eq, ALIGNMENT]

lemma addW_eq_add {a b : Nat} (h : a + b < W) : addW a b = a + b := by
  simp [addW, Nat.mod_eq_of_lt h]

lemma W_eq : W = 18446744073709551616 := by norm_num [W]

lemma subW_eq_sub {a b : Nat} (hba : b ≤ a) (ha : a < W) : subW a b = a - b := by
  rw [W_eq] at ha
  simp only [subW, W_eq]
  omega

lemma addW_mod {a b : Nat} (ha : a % ALIGNMENT = 0) (hb : b % ALIGNMENT = 0) :
    addW a b % ALIGNMENT = 0 := by
  simp only [ALIGNMENT] at *
  simp only [addW, W_eq]
  omega

lemma subW_mod {a b : Nat} (ha : a % ALIGNMENT = 0) (hb : b % ALIGNMENT = 0) :
    subW a b % ALIGNMENT = 0 := by
  simp only [ALIGNMENT] at *
  simp only [subW, W_eq]
  omega

lemma align_mod (n : Nat) : align n % ALIGNMENT = 0 := by
  simp [align, ALIGNMENT, Nat.mul_mod_left]

lemma align_lt (n : Nat) : align n < W := by
  have h1 : (n + (ALIGNMENT - 1)) % W < W := Nat.mod_lt _ (by simp [W])
  have h2 : (n + (ALIGNMENT - 1)) % W / ALIGNMENT * ALIGNMENT ≤ (n + (ALIGNMENT - 1)) % W :=
    Nat.div_mul_le_self _ _
  exact lt_of_le_of_lt h2 h1

lemma le_align {n : Nat} (h : n + (ALIGNMENT - 1) < W) : n ≤ align n := by
  simp only [align, ALIGNMENT] at *
  rw [Nat.mod_eq_of_lt h]
  have := Nat.div_add_mod (n + 15) 16
  have : (n + 15) % 16 < 16 := Nat.mod_lt _ (by omega)
  omega

/-! ## split -/

/-- **C3.** `split(block, S)` with `S` the requested aligned size: when
`block.size < S + headerSize + one alignment unit` it only marks the block
Allocated, leaving size and chain position (hence `next`) unchanged;
otherwise it resizes the block to exactly `S`, marks it Allocated, and places
after it a new Free block of `block.size - S - headerSize` bytes at address
`block.addr + headerSize + S` (immediately after the first `S` usable bytes),
which takes over the original block's old successor (the list position just
after it). Side conditions keep the `size_t` arithmetic below `2^64`. -/
theorem split_spec (b : Block) (S : Nat)
    (hS : S + MIN_BLOCK_SIZE < W) (hb : b.size < W) :
    (b.size < S + MIN_BLOCK_SIZE →
      split b S = [{ b with free := false }]) ∧
    (S + MIN_BLOCK_SIZE ≤ b.size →
      split b S =
        [{ b with size := S, free := false },
         { addr := b.addr + ALIGNED_METADATA_SIZE + S
           size := b.size - S - ALIGNED_METADATA_SIZE
           free := true }]) := by
  have hadd : addW S MIN_BLOCK_SIZE = S + MIN_BLOCK_SIZE := addW_eq_add hS
  constructor
  · intro hlt
    simp [split, hadd, hlt]
  · intro hge
    have hnlt : ¬ b.size < S + MIN_BLOCK_SIZE := not_lt.mpr hge
    have hS_le : S ≤ b.size := le_trans (Nat.le_add_right _ _) hge
    have h1 : subW b.size S = b.size - S := subW_eq_sub hS_le hb
    have h2 : subW (b.size - S) ALIGNED_METADATA_SIZE = b.size - S - ALIGNED_METADATA_SIZE := by
      refine subW_eq_sub ?_ (lt_of_le_of_lt (Nat.sub_le _ _) hb)
      rw [AMS_eq]; rw [MIN_eq] at hge; omega
    simp [split, hadd, hnlt, h1, h2]

/-- Witness for `split_spec`: a 64-byte free block split for a 16-byte
request yields a 16-byte allocated block and a 16-byte free remainder 48
bytes further on. -/
theorem split_spec_witness :
    split { addr := 4096, size := 64, free := true } 16 =
      [{ addr := 4096, size := 16, free := false },
       { addr := 4144, size := 16, free := true }] := by
  have h := (split_spec { addr := 4096, size := 64, free := true } 16
    (by simp [MIN_eq, W_eq]) (by simp [W_eq])).2 (by simp [MIN_eq])
  simpa [AMS_eq] using h

/-! ## findAndSplit (the first-fit loop) -/

/-- `findAndSplit` finds exactly the first fitting block: if position `i`
holds a free block `b` with `S ≤ b.size` and no earlier position fits, the
loop returns `b`'s usable-region pointer and splices `split b S` in place. -/
lemma findAndSplit_eq_of_first :
    ∀ (l : List Block) (i : Nat) (b : Block) (S : Nat),
      l[i]? = some b → b.free = true → S ≤ b.size →
      (∀ j, j < i → ∀ c, l[j]? = some c → (c.free && decide (S ≤ c.size)) = false) →
      findAndSplit l S =
        some (b.addr + ALIGNED_METADATA_SIZE, l.take i ++ split b S ++ l.drop (i + 1)) := by
  intro l
  induction l with
  | nil => intro i b S h; simp at h
  | cons a rest ih =>
    intro i b S hib hfree hsize hfirst
    cases i with
    | zero =>
      simp at hib
      subst hib
      simp [findAndSplit, hfree, hsize]
    | succ i =>
      have ha : (a.free && decide (S ≤ a.size)) = false := by
        exact hfirst 0 (Nat.succ_pos _) a (by simp)
      have hib' : rest[i]? = some b := by simpa using hib
      have hrest := ih i b S hib' hfree hsize
        (fun j hj c hc => hfirst (j + 1) (by omega) c (by simpa using hc))
      simp [findAndSplit, ha, hrest]

/-- No block fits: every free block is smaller than the request. -/
lemma findAndSplit_eq_none {S : Nat} :
    ∀ l : List Block, (∀ b ∈ l, (b.free && decide (S ≤ b.size)) = false) →
      findAndSplit l S = none := by
  intro l
  induction l with
  | nil => simp [findAndSplit]
  | cons a rest ih =>
    intro h
    have ha := h a (by simp)
    have hrest := ih (fun b hb => h b (by simp [hb]))
    simp [findAndSplit, ha, hrest]

/-- **C1.** First-fit: when the chain holds a Free block of size at least the
aligned request, `mallocate` does not call `sbrk` (`sbrkCall = none`),
returns the usable-region pointer of the first such block in chain order, and
only replaces that block in place by its `split` (appending nothing). -/
theorem mallocate_first_fit (s : AllocState) (g : Bool) (n i : Nat) (b : Block)
    (hib : s.blocks[i]? = some b) (hfree : b.free = true) (hsize : align n ≤ b.size)
    (hfirst : ∀ j, j < i → ∀ c, s.blocks[j]? = some c →
      (c.free && decide (align n ≤ c.size)) = false) :
    (mallocate s g n).sbrkCall = none ∧
    (mallocate s g n).ret = some (b.addr + ALIGNED_METADATA_SIZE) ∧
    (mallocate s g n).state.blocks =
      s.blocks.take i ++ split b (align n) ++ s.blocks.drop (i + 1) := by
  have hfs := findAndSplit_eq_of_first s.blocks i b (align n) hib hfree hsize hfirst
  have hne : s.blocks.isEmpty = false := by
    cases hl : s.blocks with
    | nil => rw [hl] at hib; simp at hib
    | cons x xs => simp
  simp [mallocate, hne, hfs]

/-- Witness for `mallocate_first_fit`: with an allocated block followed by two
free ones, a 20-byte request (aligned to 32) takes the middle block — the
first fitting one — without growing the heap. -/
theorem mallocate_first_fit_witness :
    (mallocate ⟨[⟨4096, 32, false⟩, ⟨4160, 32, true⟩, ⟨4224, 64, true⟩], 4096, 4320⟩
        true 20).sbrkCall = none ∧
    (mallocate ⟨[⟨4096, 32, false⟩, ⟨4160, 32, true⟩, ⟨4224, 64, true⟩], 4096, 4320⟩
        true 20).ret = some 4192 ∧
    (mallocate ⟨[⟨4096, 32, false⟩, ⟨4160, 32, true⟩, ⟨4224, 64, true⟩], 4096, 4320⟩
        true 20).state.blocks =
      [⟨4096, 32, false⟩, ⟨4160, 32, false⟩, ⟨4224, 64, true⟩] := by
  have h := mallocate_first_fit
    ⟨[⟨4096, 32, false⟩, ⟨4160, 32, true⟩, ⟨4224, 64, true⟩], 4096, 4320⟩
    true 20 1 ⟨4160, 32, true⟩ (by decide) (by decide) (by decide)
    (by
      intro j hj c hc
      have hj0 : j = 0 := by omega
      subst hj0
      simp at hc
      subst hc
      decide)
  refine ⟨h.1, by simpa [AMS_eq] using h.2.1, h.2.2.trans ?_⟩
  decide

/-- **C6.** `mfree` is a silent no-op — the state is returned unchanged —
whenever the pointer is null, below `heap_start`, at or past the current
break, misaligned, or designates a block that is already Free. -/
theorem mfree_noop (s : AllocState) (ptr : Nat)
    (h : ptr = 0 ∨ ptr < s.heap_start ∨ s.brk ≤ ptr ∨ is_aligned ptr = false ∨
      (∃ i b, findBlockIdx s.blocks (ptr - ALIGNED_METADATA_SIZE) = some i ∧
        s.blocks[i]? = some b ∧ b.free = true)) :
    mfree s ptr = some s := by
  by_cases h0 : ptr = 0
  · simp [mfree, h0]
  by_cases hr : ptr < s.heap_start || decide (s.brk ≤ ptr)
  · simp [mfree, h0, hr]
  by_cases hal : is_aligned ptr = false
  · simp [mfree, h0, hr, hal]
  rcases h with h | h | h | h | ⟨i, b, hfi, hib, hbf⟩
  · exact absurd h h0
  · exact absurd (by simp [h]) hr
  · exact absurd (by simp [h]) hr
  · exact absurd h hal
  · simp [mfree, h0, hr, hal, hfi, hib, hbf]

/-- Witness for `mfree_noop`: a second `mfree` of a pointer whose block is
already Free leaves the state untouched. -/
theorem mfree_noop_witness :
    mfree ⟨[⟨4096, 64, false⟩, ⟨4192, 32, true⟩], 4096, 4256⟩ 4224 =
      some ⟨[⟨4096, 64, false⟩, ⟨4192, 32, true⟩], 4096, 4256⟩ :=
  mfree_noop _ 4224
    (Or.inr (Or.inr (Or.inr (Or.inr
      ⟨1, ⟨4192, 32, true⟩, by decide, by decide, rfl⟩))))

/-- **C7.** When no Free block fits (the empty chain included), `mallocate`
asks `sbrk` for exactly `ALIGNED_METADATA_SIZE + aligned size` bytes
(`size_t` sum); on success it appends exactly one Allocated block of exactly
the aligned size at the end of the chain — the sole block when the chain was
empty — and returns its usable-region pointer; on growth failure it returns
NULL with the state completely unchanged. -/
theorem mallocate_grow (s : AllocState) (g : Bool) (n : Nat)
    (hnofit : ∀ b ∈ s.blocks, b.free = true → b.size < align n) :
    (mallocate s g n).sbrkCall = some (addW ALIGNED_METADATA_SIZE (align n)) ∧
    (g = true →
      (mallocate s g n).ret = some (s.brk + ALIGNED_METADATA_SIZE) ∧
      (mallocate s g n).state.blocks =
        s.blocks ++ [{ addr := s.brk, size := align n, free := false }]) ∧
    (g = false →
      (mallocate s g n).ret = none ∧ (mallocate s g n).state = s) := by
  have hfs : findAndSplit s.blocks (align n) = none := by
    refine findAndSplit_eq_none s.blocks (fun b hb => ?_)
    cases hbf : b.free with
    | false => simp
    | true =>
      have := hnofit b hb hbf
      simp [decide_eq_false (not_le.mpr this)]
  cases hl : s.blocks with
  | nil =>
    cases g <;> simp [mallocate, hl]
  | cons x xs =>
    rw [← hl]
    have hne : s.blocks.isEmpty = false := by simp [hl]
    cases g <;> simp [mallocate, hne, hfs]

/-- Witness for `mallocate_grow`: a 50-byte request against a chain whose
only block is allocated grows the heap by `32 + 64` bytes and appends one
64-byte allocated block at the break. -/
theorem mallocate_grow_witness :
    (mallocate ⟨[⟨4096, 32, false⟩], 4096, 4160⟩ true 50).sbrkCall = some 96 ∧
    (mallocate ⟨[⟨4096, 32, false⟩], 4096, 4160⟩ true 50).state.blocks =
      [⟨4096, 32, false⟩, ⟨4160, 64, false⟩] := by
  have h := mallocate_grow ⟨[⟨4096, 32, false⟩], 4096, 4160⟩ true 50 (by decide)
  exact ⟨h.1.trans (by decide), ((h.2.1 rfl).2).trans (by decide)⟩

/-! ## Chain invariants preserved by the public operations -/

/-- The invariants of reachable states that the claims need: block sizes and
addresses are multiples of the alignment unit, no two chain-adjacent blocks
are both free, and the break stays aligned. -/
structure ChainInv (s : AllocState) : Prop where
  sizes : ∀ b ∈ s.blocks, b.size % ALIGNMENT = 0
  addrs : ∀ b ∈ s.blocks, b.addr % ALIGNMENT = 0
  noadj : List.Chain' BothNotFree s.blocks
  brkal : s.brk % ALIGNMENT = 0

lemma AMS_mod : ALIGNED_METADATA_SIZE % ALIGNMENT = 0 := by
  simp [AMS_eq, ALIGNMENT]

lemma split_sizes {b : Block} {S : Nat}
    (hb : b.size % ALIGNMENT = 0) (hS : S % ALIGNMENT = 0) :
    ∀ c ∈ split b S, c.size % ALIGNMENT = 0 := by
  intro c hc
  unfold split at hc
  split at hc
  · simp at hc
    subst hc
    exact hb
  · simp at hc
    rcases hc with hc | hc <;> subst hc
    · exact hS
    · exact subW_mod (subW_mod hb hS) AMS_mod

lemma split_addrs {b : Block} {S : Nat}
    (hb : b.addr % ALIGNMENT = 0) (hS : S % ALIGNMENT = 0) :
    ∀ c ∈ split b S, c.addr % ALIGNMENT = 0 := by
  intro c hc
  unfold split at hc
  split at hc
  · simp at hc
    subst hc
    exact hb
  · simp at hc
    rcases hc with hc | hc <;> subst hc
    · exact hb
    · have := AMS_mod
      simp only [ALIGNMENT] at *
      omega

/-- Every block of the chain `findAndSplit` produces satisfies `P`, given
that the input blocks do and that `split` preserves `P`. -/
lemma findAndSplit_pres (P : Block → Prop) {S : Nat}
    (hsplit : ∀ b, P b → ∀ c ∈ split b S, P c) :
    ∀ (l : List Block) (p : Nat) (l' : List Block),
      findAndSplit l S = some (p, l') → (∀ b ∈ l, P b) → ∀ c ∈ l', P c := by
  intro l
  induction l with
  | nil => intro p l' h; simp [findAndSplit] at h
  | cons a rest ih =>
    intro p l' h hP c hc
    unfold findAndSplit at h
    by_cases hfit : (a.free && decide (S ≤ a.size)) = true
    · rw [if_pos hfit] at h
      obtain ⟨-, hl⟩ : a.addr + ALIGNED_METADATA_SIZE = p ∧ split a S ++ rest = l' := by
        simpa using h
      subst hl
      rcases List.mem_append.mp hc with hc | hc
      · exact hsplit a (hP a (by simp)) c hc
      · exact hP c (by simp [hc])
    · rw [if_neg hfit] at h
      cases hfs : findAndSplit rest S with
      | none => rw [hfs] at h; simp at h
      | some v =>
        obtain ⟨q, rest'⟩ := v
        rw [hfs] at h
        obtain ⟨-, hl⟩ : q = p ∧ a :: rest' = l' := by simpa using h
        subst hl
        rcases List.mem_cons.mp hc with hc | hc
        · subst hc; exact hP c (by simp)
        · exact ih q rest' hfs (fun b hb => hP b (by simp [hb])) c hc

/-- `findAndSplit` preserves the no-adjacent-free invariant, and its output
chain's head is free only if the input's head was. -/
lemma findAndSplit_chain {S : Nat} :
    ∀ (l : List Block) (p : Nat) (l' : List Block),
      findAndSplit l S = some (p, l') → List.Chain' BothNotFree l →
      List.Chain' BothNotFree l' ∧
      (∀ b' ∈ l'.head?, b'.free = true → ∀ b ∈ l.head?, b.free = true) := by
  intro l
  induction l with
  | nil => intro p l' h; simp [findAndSplit] at h
  | cons a rest ih =>
    intro p l' h hch
    have hch_rest : List.Chain' BothNotFree rest := (List.chain'_cons'.mp hch).2
    have hch_head : ∀ y ∈ rest.head?, BothNotFree a y := (List.chain'_cons'.mp hch).1
    unfold findAndSplit at h
    by_cases hfit : (a.free && decide (S ≤ a.size)) = true
    · rw [if_pos hfit] at h
      obtain ⟨-, hl⟩ : a.addr + ALIGNED_METADATA_SIZE = p ∧ split a S ++ rest = l' := by
        simpa using h
      subst hl
      have hafree : a.free = true := (Bool.and_eq_true_iff.mp hfit).1
      unfold split
      split
      · refine ⟨List.chain'_cons'.mpr ⟨?_, hch_rest⟩, ?_⟩
        · intro y hy
          simp [BothNotFree]
        · intro b' hb' hfree
          simp at hb'
          rw [← hb'] at hfree
          simp at hfree
      · refine ⟨?_, ?_⟩
        · refine List.chain'_cons'.mpr ⟨?_, List.chain'_cons'.mpr ⟨?_, hch_rest⟩⟩
          · intro y hy
            simp [BothNotFree]
          · intro y hy
            have := hch_head y hy
            simp only [BothNotFree, hafree, Bool.true_and] at this
            simp [BothNotFree, this]
        · intro b' hb' hfree
          simp at hb'
          rw [← hb'] at hfree
          simp at hfree
    · rw [if_neg hfit] at h
      cases hfs : findAndSplit rest S with
      | none => rw [hfs] at h; simp at h
      | some v =>
        obtain ⟨q, rest'⟩ := v
        rw [hfs] at h
        obtain ⟨-, hl⟩ : q = p ∧ a :: rest' = l' := by simpa using h
        subst hl
        obtain ⟨hch', hhead'⟩ := ih q rest' hfs hch_rest
        refine ⟨List.chain'_cons'.mpr ⟨?_, hch'⟩, ?_⟩
        · intro y hy
          by_cases hyf : y.free = true
          · obtain ⟨b, hb, hbf⟩ :
                ∃ b ∈ rest.head?, b.free = true := by
              rcases rest with - | ⟨r0, rrest⟩
              · simp [findAndSplit] at hfs
              · exact ⟨r0, by simp, by simpa using hhead' y hy hyf r0 (by simp)⟩
            have := hch_head b hb
            simp only [BothNotFree, hbf, Bool.and_true] at this
            simp [BothNotFree, this]
          · simp [BothNotFree, Bool.eq_false_iff.mpr hyf]
        · intro b' hb' hfree
          simp at hb'
          intro b hb
          simp at hb
          exact hb ▸ (hb'.symm ▸ hfree)

/-- `mallocate` preserves the chain invariants on every path. -/
lemma chainInv_mallocate {s : AllocState} (h : ChainInv s) (g : Bool) (n : Nat) :
    ChainInv (mallocate s g n).state := by
  have halign : align n % ALIGNMENT = 0 := align_mod n
  have hbrk' : (s.brk + addW ALIGNED_METADATA_SIZE (align n)) % ALIGNMENT = 0 := by
    have h1 := addW_mod AMS_mod halign
    have h2 := h.brkal
    simp only [ALIGNMENT] at *
    omega
  cases hempty : s.blocks.isEmpty
  · cases hfs : findAndSplit s.blocks (align n) with
    | some v =>
      obtain ⟨p, blocks'⟩ := v
      have hres : (mallocate s g n).state = { s with blocks := blocks' } := by
        simp [mallocate, hempty, hfs]
      rw [hres]
      refine ⟨?_, ?_, ?_, h.brkal⟩
      · exact findAndSplit_pres _ (fun b hb => split_sizes hb halign)
          s.blocks p blocks' hfs h.sizes
      · exact findAndSplit_pres _ (fun b hb => split_addrs hb halign)
          s.blocks p blocks' hfs h.addrs
      · exact (findAndSplit_chain s.blocks p blocks' hfs h.noadj).1
    | none =>
      cases g
      · have hres : (mallocate s false n).state = s := by
          simp [mallocate, hempty, hfs]
        rw [hres]; exact h
      · have hres : (mallocate s true n).state =
            { s with
              blocks := s.blocks ++ [⟨s.brk, align n, false⟩]
              brk := s.brk + addW ALIGNED_METADATA_SIZE (align n) } := by
          simp [mallocate, hempty, hfs]
        rw [hres]
        refine ⟨?_, ?_, ?_, hbrk'⟩
        · intro b hb
          rcases List.mem_append.mp hb with hb | hb
          · exact h.sizes b hb
          · simp at hb; subst hb; exact halign
        · intro b hb
          rcases List.mem_append.mp hb with hb | hb
          · exact h.addrs b hb
          · simp at hb; subst hb; exact h.brkal
        · refine List.chain'_append.mpr ⟨h.noadj, List.chain'_singleton _, ?_⟩
          intro x hx y hy
          simp at hy
          subst hy
          simp [BothNotFree]
  · cases g
    · have hres : (mallocate s false n).state = s := by
        simp [mallocate, hempty]
      rw [hres]; exact h
    · have hres : (mallocate s true n).state =
          { s with
            blocks := [⟨s.brk, align n, false⟩]
            brk := s.brk + addW ALIGNED_METADATA_SIZE (align n) } := by
        simp [mallocate, hempty]
      rw [hres]
      refine ⟨?_, ?_, ?_, hbrk'⟩
      · intro b hb; simp at hb; subst hb; exact halign
      · intro b hb; simp at hb; subst hb; exact h.brkal
      · exact List.chain'_singleton _

/-! ## coalesce -/

/-- The forward pass is the fold `absorbAll` over the run of free successors,
leaving the rest of the chain from the first non-free block on. -/
lemma coalesceForward_eq (l : List Block) :
    ∀ b : Block, coalesceForward b l =
      (absorbAll b (l.takeWhile (·.free)), l.dropWhile (·.free)) := by
  induction l with
  | nil => intro b; simp [coalesceForward, absorbAll]
  | cons n rest ih =>
    intro b
    cases hf : n.free
    · simp [coalesceForward, hf, List.takeWhile_cons, List.dropWhile_cons, absorbAll]
    · simp [coalesceForward, hf, List.takeWhile_cons, List.dropWhile_cons, ih, absorbAll]

lemma absorbAll_free (run : List Block) :
    ∀ b : Block, (absorbAll b run).free = b.free := by
  induction run with
  | nil => intro b; simp [absorbAll]
  | cons c rest ih => intro b; simp [absorbAll] at ih ⊢; rw [ih]

lemma absorbAll_addr (run : List Block) :
    ∀ b : Block, (absorbAll b run).addr = b.addr := by
  induction run with
  | nil => intro b; simp [absorbAll]
  | cons c rest ih => intro b; simp [absorbAll] at ih ⊢; rw [ih]

lemma absorbAll_size_mod (run : List Block) :
    ∀ b : Block, b.size % ALIGNMENT = 0 → (∀ c ∈ run, c.size % ALIGNMENT = 0) →
      (absorbAll b run).size % ALIGNMENT = 0 := by
  induction run with
  | nil => intro b hb _; simpa [absorbAll] using hb
  | cons c rest ih =>
    intro b hb hrun
    simp only [absorbAll, List.foldl_cons] at ih ⊢
    exact ih _ (addW_mod hb (addW_mod AMS_mod (hrun c (by simp))))
      (fun d hd => hrun d (by simp [hd]))

/-- The head of `dropWhile (·.free)` is never free. -/
lemma head_dropWhile_free (l : List Block) :
    ∀ c ∈ (l.dropWhile (·.free)).head?, c.free = false := by
  induction l with
  | nil => simp
  | cons a rest ih =>
    cases hf : a.free
    · simp [List.dropWhile_cons, hf]
    · simpa [List.dropWhile_cons, hf] using ih


/-- `coalesce` at position `front.length` of `front ++ bf :: rest`, when the
freed block has no predecessor: only the forward pass acts. -/
lemma coalesce_append_none (front : List Block) (bf : Block) (rest : List Block)
    (hlast : front.getLast? = none) :
    coalesce (front ++ bf :: rest) front.length =
      (front ++ absorbAll bf (rest.takeWhile (·.free)) :: rest.dropWhile (·.free),
       front.length) := by
  unfold coalesce
  rw [List.drop_left front (bf :: rest)]
  simp only [List.take_left front (bf :: rest), coalesceForward_eq, hlast]

/-- `coalesce` when the predecessor exists but is allocated: only the forward
pass acts and the block itself survives. -/
lemma coalesce_append_notfree (front : List Block) (bf : Block) (rest : List Block)
    (prev : Block) (hlast : front.getLast? = some prev) (hpf : prev.free = false) :
    coalesce (front ++ bf :: rest) front.length =
      (front ++ absorbAll bf (rest.takeWhile (·.free)) :: rest.dropWhile (·.free),
       front.length) := by
  unfold coalesce
  rw [List.drop_left front (bf :: rest)]
  simp only [List.take_left front (bf :: rest), coalesceForward_eq, hlast]
  simp [hpf]

/-- `coalesce` when the predecessor is free: after the forward pass the block
is absorbed into the predecessor, which survives (position `front.length - 1`). -/
lemma coalesce_append_free (front : List Block) (bf : Block) (rest : List Block)
    (prev : Block) (hlast : front.getLast? = some prev) (hpf : prev.free = true) :
    coalesce (front ++ bf :: rest) front.length =
      (front.dropLast ++
        { prev with size := addW prev.size (addW ALIGNED_METADATA_SIZE
            (absorbAll bf (rest.takeWhile (·.free))).size) }
          :: rest.dropWhile (·.free),
       front.length - 1) := by
  unfold coalesce
  rw [List.drop_left front (bf :: rest)]
  simp only [List.take_left front (bf :: rest), coalesceForward_eq, hlast]
  simp [hpf]

/-- The chain produced by freeing the block at position `front.length` and
coalescing has no two adjacent free blocks, provided the original chain had
none. -/
lemma coalesce_set_chain (front : List Block) (b : Block) (rest : List Block)
    (hch : List.Chain' BothNotFree (front ++ b :: rest)) :
    List.Chain' BothNotFree
      (coalesce (front ++ { b with free := true } :: rest) front.length).1 := by
  obtain ⟨hfront, hmid, hlink⟩ := List.chain'_append.mp hch
  have hrest : List.Chain' BothNotFree rest := (List.chain'_cons'.mp hmid).2
  have hrest' : List.Chain' BothNotFree (rest.dropWhile (·.free)) :=
    hrest.suffix (List.dropWhile_suffix _)
  have hmid' : List.Chain' BothNotFree
      (absorbAll { b with free := true } (rest.takeWhile (·.free))
        :: rest.dropWhile (·.free)) := by
    refine List.chain'_cons'.mpr ⟨?_, hrest'⟩
    intro y hy
    simp [BothNotFree, head_dropWhile_free rest y hy]
  cases hlast : front.getLast? with
  | none =>
    rw [coalesce_append_none front _ rest hlast]
    have hfe : front = [] := List.getLast?_eq_none_iff.mp hlast
    subst hfe
    simpa using hmid'
  | some prev =>
    cases hpf : prev.free
    · rw [coalesce_append_notfree front _ rest prev hlast hpf]
      refine List.chain'_append.mpr ⟨hfront, hmid', ?_⟩
      intro x hx y hy
      rw [hlast] at hx
      simp at hx
      subst hx
      simp [BothNotFree, hpf]
    · rw [coalesce_append_free front _ rest prev hlast hpf]
      have hfdl : List.Chain' BothNotFree front.dropLast :=
        List.Chain'.prefix hfront ( List.dropLast_prefix front)
      refine List.chain'_append.mpr ⟨hfdl, ?_, ?_⟩
      · refine List.chain'_cons'.mpr ⟨?_, hrest'⟩
        intro y hy
        simp [BothNotFree, head_dropWhile_free rest y hy]
      · intro x hx y hy
        simp at hy
        subst hy
        have hdecomp : front.dropLast ++ [prev] = front :=
          List.dropLast_append_getLast? prev hlast
        have hchain2 : List.Chain' BothNotFree (front.dropLast ++ [prev]) := by
          rw [hdecomp]; exact hfront
        have := (List.chain'_append.mp hchain2).2.2 x hx prev (by simp)
        simp only [BothNotFree, hpf, Bool.and_true] at this
        simp [BothNotFree, this]

/-- Every block of a coalesced chain satisfies `P` if all input blocks do and
`P` survives the absorption step. -/
lemma coalesce_set_pres (P : Block → Prop)
    (hstep : ∀ a c, P a → P c →
      P { a with size := addW a.size (addW ALIGNED_METADATA_SIZE c.size) })
    (front : List Block) (bf : Block) (rest : List Block)
    (hfrontP : ∀ c ∈ front, P c) (hb : P bf) (hrest : ∀ c ∈ rest, P c) :
    ∀ c ∈ (coalesce (front ++ bf :: rest) front.length).1, P c := by
  have habsorb : ∀ (run : List Block) (b : Block), P b → (∀ c ∈ run, P c) →
      P (absorbAll b run) := by
    intro run
    induction run with
    | nil => intro b hb0 _; simpa [absorbAll] using hb0
    | cons c crest ih =>
      intro b hb0 hrun
      simp only [absorbAll, List.foldl_cons] at ih ⊢
      exact ih _ (hstep b c hb0 (hrun c (by simp)))
        (fun d hd => hrun d (by simp [hd]))
  have hmerged : P (absorbAll bf (rest.takeWhile (·.free))) :=
    habsorb _ bf hb (fun c hc => hrest c ((List.takeWhile_prefix _).subset hc))
  have hrest2 : ∀ c ∈ rest.dropWhile (·.free), P c :=
    fun c hc => hrest c ((List.dropWhile_suffix _).subset hc)
  cases hlast : front.getLast? with
  | none =>
    rw [coalesce_append_none front bf rest hlast]
    intro c hc
    rcases List.mem_append.mp hc with hc | hc
    · exact hfrontP c hc
    · rcases List.mem_cons.mp hc with hc | hc
      · subst hc; exact hmerged
      · exact hrest2 c hc
  | some prev =>
    have hprev : P prev := hfrontP prev (List.mem_of_mem_getLast? hlast)
    cases hpf : prev.free
    · rw [coalesce_append_notfree front bf rest prev hlast hpf]
      intro c hc
      rcases List.mem_append.mp hc with hc | hc
      · exact hfrontP c hc
      · rcases List.mem_cons.mp hc with hc | hc
        · subst hc; exact hmerged
        · exact hrest2 c hc
    · rw [coalesce_append_free front bf rest prev hlast hpf]
      intro c hc
      rcases List.mem_append.mp hc with hc | hc
      · exact hfrontP c (List.dropLast_subset _ hc)
      · rcases List.mem_cons.mp hc with hc | hc
        · subst hc; exact hstep prev _ hprev hmerged
        · exact hrest2 c hc

/-- `mfree` preserves the chain invariants on every defined path. -/
lemma chainInv_mfree {s s' : AllocState} (h : ChainInv s) (p : Nat)
    (hf : mfree s p = some s') : ChainInv s' := by
  unfold mfree at hf
  split at hf
  · cases hf; exact h
  split at hf
  · cases hf; exact h
  split at hf
  · cases hf; exact h
  split at hf
  · simp at hf
  rename_i i hfi
  split at hf
  · simp at hf
  rename_i b hib
  split at hf
  · cases hf; exact h
  have hi : i < s.blocks.length := by
    by_contra hcon
    push_neg at hcon
    rw [List.getElem?_eq_none hcon] at hib
    simp at hib
  have hbi : s.blocks[i] = b := by
    have hg := List.getElem?_eq_getElem hi
    rw [hg] at hib
    exact Option.some.inj hib
  have hset : s.blocks.set i { b with free := true } =
      s.blocks.take i ++ { b with free := true } :: s.blocks.drop (i + 1) :=
    List.set_eq_take_cons_drop _ hi
  have hdecomp : s.blocks = s.blocks.take i ++ b :: s.blocks.drop (i + 1) := by
    conv_lhs => rw [← List.take_append_drop i s.blocks]
    rw [List.drop_eq_getElem_cons hi, hbi]
  have hlen : (s.blocks.take i).length = i := by
    rw [List.length_take]
    omega
  have hbmem : b ∈ s.blocks := hbi ▸ List.getElem_mem hi
  cases hf
  refine ⟨?_, ?_, ?_, h.brkal⟩
  · have hpres := coalesce_set_pres (fun c => c.size % ALIGNMENT = 0)
      (fun a c ha hc => addW_mod ha (addW_mod AMS_mod hc))
      (s.blocks.take i) { b with free := true } (s.blocks.drop (i + 1))
      (fun c hc => h.sizes c (List.take_subset i s.blocks hc))
      (h.sizes b hbmem)
      (fun c hc => h.sizes c (List.drop_subset (i + 1) s.blocks hc))
    rw [hlen] at hpres
    simpa [hset] using hpres
  · have hpres := coalesce_set_pres (fun c => c.addr % ALIGNMENT = 0)
      (fun a c ha _ => ha)
      (s.blocks.take i) { b with free := true } (s.blocks.drop (i + 1))
      (fun c hc => h.addrs c (List.take_subset i s.blocks hc))
      (h.addrs b hbmem)
      (fun c hc => h.addrs c (List.drop_subset (i + 1) s.blocks hc))
    rw [hlen] at hpres
    simpa [hset] using hpres
  · have hch : List.Chain' BothNotFree
        (s.blocks.take i ++ b :: s.blocks.drop (i + 1)) := by
      rw [← hdecomp]
      exact h.noadj
    have hpres := coalesce_set_chain (s.blocks.take i) b (s.blocks.drop (i + 1)) hch
    rw [hlen] at hpres
    simpa [hset] using hpres

/-- Every reachable state satisfies the chain invariants. -/
lemma reachable_chainInv {s : AllocState} (h : Reachable s) : ChainInv s := by
  induction h with
  | init hs ha => exact ⟨by simp, by simp, by simp, ha⟩
  | alloc g n _ ih => exact chainInv_mallocate ih g n
  | free p _ hfree ih => exact chainInv_mfree ih p hfree

/-! ## Claim theorems: invariants (C2 corrected, C5) -/

/-- **C2 (counterexample).** `mallocate(0)` on a fresh heap creates a block of
size `0`: not every block's size is at least the alignment unit, and
`allocate(0)` does not yield a minimum-size usable block. -/
theorem blockSize_min_counterexample :
    (mallocate ⟨[], 4096, 4096⟩ true 0).state.blocks =
      [{ addr := 4096, size := 0, free := false }] ∧
    ¬ (∀ b ∈ (mallocate ⟨[], 4096, 4096⟩ true 0).state.blocks,
        ALIGNMENT ≤ b.size) := by
  constructor
  · decide
  · decide

/-- **C2 (amended).** After every public operation, every block's size is a
multiple of the alignment unit (possibly zero; `allocate(0)` yields a
zero-size block). -/
theorem blockSizes_multiple (s : AllocState) (hreach : Reachable s) :
    sizesAligned s.blocks = true := by
  have hinv := reachable_chainInv hreach
  rw [sizesAligned, List.all_eq_true]
  intro b hb
  simpa using hinv.sizes b hb

/-- Witness for `blockSizes_multiple`, at the very `allocate(0)` state of the
counterexample. -/
theorem blockSizes_multiple_witness :
    sizesAligned (mallocate ⟨[], 4096, 4096⟩ true 0).state.blocks = true :=
  blockSizes_multiple _ (Reachable.alloc true 0 (Reachable.init 4096 (by decide)))

/-- **C5.** After any sequence of public operations, no two chain-adjacent
blocks are both Free. -/
theorem no_adjacent_free (s : AllocState) (hreach : Reachable s) :
    List.Chain' BothNotFree s.blocks :=
  (reachable_chainInv hreach).noadj

/-- Witness for `no_adjacent_free`: allocate 64, 32, 48 bytes and free the
middle block; the resulting three-block chain has no adjacent free pair. -/
theorem no_adjacent_free_witness :
    List.Chain' BothNotFree
      [⟨4096, 64, false⟩, ⟨4192, 32, true⟩, ⟨4256, 48, false⟩] := by
  have h := no_adjacent_free ⟨[⟨4096, 64, false⟩, ⟨4192, 32, true⟩,
      ⟨4256, 48, false⟩], 4096, 4336⟩
    (Reachable.free 4224
      (Reachable.alloc true 48 (Reachable.alloc true 32 (Reachable.alloc true 64
        (Reachable.init 4096 (by decide)))))
      (by decide))
  simpa using h

/-! ## Claim theorems: alignment (C9) and capacity (C8 corrected) -/

/-- The pointer `findAndSplit` returns is the usable-region pointer of some
block of the input chain. -/
lemma findAndSplit_ptr {S : Nat} :
    ∀ (l : List Block) (p : Nat) (l' : List Block),
      findAndSplit l S = some (p, l') →
      ∃ b ∈ l, p = b.addr + ALIGNED_METADATA_SIZE := by
  intro l
  induction l with
  | nil => intro p l' h; simp [findAndSplit] at h
  | cons a rest ih =>
    intro p l' h
    unfold findAndSplit at h
    by_cases hfit : (a.free && decide (S ≤ a.size)) = true
    · rw [if_pos hfit] at h
      obtain ⟨hp, -⟩ : a.addr + ALIGNED_METADATA_SIZE = p ∧ split a S ++ rest = l' := by
        simpa using h
      exact ⟨a, by simp, hp.symm⟩
    · rw [if_neg hfit] at h
      cases hfs : findAndSplit rest S with
      | none => rw [hfs] at h; simp at h
      | some v =>
        obtain ⟨q, rest'⟩ := v
        rw [hfs] at h
        obtain ⟨hq, -⟩ : q = p ∧ a :: rest' = l' := by simpa using h
        obtain ⟨b, hb, hbp⟩ := ih q rest' hfs
        exact ⟨b, by simp [hb], hq ▸ hbp⟩

/-- **C9.** Assuming the growth primitive hands out a 16-byte-aligned arena
base (built into `Reachable.init`), every pointer a successful `mallocate`
returns passes `is_aligned`. -/
theorem mallocate_ret_aligned (s : AllocState) (g : Bool) (n ptr : Nat)
    (hreach : Reachable s)
    (hret : (mallocate s g n).ret = some ptr) :
    is_aligned ptr = true := by
  have hinv := reachable_chainInv hreach
  have hAMS := AMS_mod
  have halignptr : ∀ a : Nat, a % ALIGNMENT = 0 →
      is_aligned (a + ALIGNED_METADATA_SIZE) = true := by
    intro a ha
    simp only [is_aligned, beq_iff_eq, ALIGNMENT] at *
    omega
  cases hempty : s.blocks.isEmpty
  · cases hfs : findAndSplit s.blocks (align n) with
    | some v =>
      obtain ⟨p, blocks'⟩ := v
      have hp : (mallocate s g n).ret = some p := by
        simp [mallocate, hempty, hfs]
      rw [hp] at hret
      obtain ⟨b, hb, hbp⟩ := findAndSplit_ptr s.blocks p blocks' hfs
      cases hret
      rw [hbp]
      exact halignptr b.addr (hinv.addrs b hb)
    | none =>
      cases g
      · have : (mallocate s false n).ret = none := by simp [mallocate, hempty, hfs]
        rw [this] at hret
        simp at hret
      · have : (mallocate s true n).ret = some (s.brk + ALIGNED_METADATA_SIZE) := by
          simp [mallocate, hempty, hfs]
        rw [this] at hret
        cases hret
        exact halignptr s.brk hinv.brkal
  · cases g
    · have : (mallocate s false n).ret = none := by simp [mallocate, hempty]
      rw [this] at hret
      simp at hret
    · have : (mallocate s true n).ret = some (s.brk + ALIGNED_METADATA_SIZE) := by
        simp [mallocate, hempty]
      rw [this] at hret
      cases hret
      exact halignptr s.brk hinv.brkal

/-- Witness for `mallocate_ret_aligned`: the second allocation on a fresh
heap returns `4224`, which is 16-byte aligned. -/
theorem mallocate_ret_aligned_witness : is_aligned 4224 = true :=
  mallocate_ret_aligned (mallocate ⟨[], 4096, 4096⟩ true 64).state true 32 4224
    (Reachable.alloc true 64 (Reachable.init 4096 (by decide)))
    (by decide)

/-- **C8 (counterexample).** Over the full `size_t` range the capacity claim
fails: `mallocate(2^64 - 1)` succeeds (the `size_t` round-up overflows to an
aligned size of 0, so `sbrk` is asked for just 32 bytes) yet the resulting
block has usable size 0, far below the requested `2^64 - 1` bytes. -/
theorem mallocate_capacity_counterexample :
    (mallocate ⟨[], 4096, 4096⟩ true (2 ^ 64 - 1)).ret = some 4128 ∧
    (mallocate ⟨[], 4096, 4096⟩ true (2 ^ 64 - 1)).state.blocks =
      [{ addr := 4096, size := 0, free := false }] ∧
    hasCapacityAt (mallocate ⟨[], 4096, 4096⟩ true (2 ^ 64 - 1)).state.blocks
      4128 (2 ^ 64 - 1) = false := by
  refine ⟨by decide, by decide, by decide⟩

/-- The block split off by `findAndSplit` keeps at least the requested size
and sits at the returned pointer. -/
lemma findAndSplit_capacity {S : Nat} :
    ∀ (l : List Block) (p : Nat) (l' : List Block),
      findAndSplit l S = some (p, l') →
      ∃ c ∈ l', c.addr + ALIGNED_METADATA_SIZE = p ∧ S ≤ c.size := by
  intro l
  induction l with
  | nil => intro p l' h; simp [findAndSplit] at h
  | cons a rest ih =>
    intro p l' h
    unfold findAndSplit at h
    by_cases hfit : (a.free && decide (S ≤ a.size)) = true
    · rw [if_pos hfit] at h
      obtain ⟨hp, hl⟩ : a.addr + ALIGNED_METADATA_SIZE = p ∧ split a S ++ rest = l' := by
        simpa using h
      have hS : S ≤ a.size := by
        have := (Bool.and_eq_true_iff.mp hfit).2
        simpa using this
      subst hl
      unfold split
      split
      · exact ⟨{ a with free := false }, by simp, hp, hS⟩
      · exact ⟨{ a with size := S, free := false }, by simp, hp, le_refl S⟩
    · rw [if_neg hfit] at h
      cases hfs : findAndSplit rest S with
      | none => rw [hfs] at h; simp at h
      | some v =>
        obtain ⟨q, rest'⟩ := v
        rw [hfs] at h
        obtain ⟨hq, hl⟩ : q = p ∧ a :: rest' = l' := by simpa using h
        obtain ⟨c, hc, hcp, hcs⟩ := ih q rest' hfs
        subst hl
        exact ⟨c, by simp [hc], hq ▸ hcp, hcs⟩

/-- **C8 (amended).** For every request `n` whose `size_t` round-up does not
overflow (`n + 15 < 2^64`, i.e. `n ≤ 2^64 - 16`), a successful
`mallocate(n)` returns a pointer whose block offers at least `n` usable
bytes. -/
theorem mallocate_capacity (s : AllocState) (g : Bool) (n ptr : Nat)
    (hn : n + (ALIGNMENT - 1) < W)
    (hret : (mallocate s g n).ret = some ptr) :
    hasCapacityAt (mallocate s g n).state.blocks ptr n = true := by
  have hna : n ≤ align n := le_align hn
  rw [hasCapacityAt, List.any_eq_true]
  cases hempty : s.blocks.isEmpty
  · cases hfs : findAndSplit s.blocks (align n) with
    | some v =>
      obtain ⟨p, blocks'⟩ := v
      have hres : (mallocate s g n).ret = some p ∧
          (mallocate s g n).state.blocks = blocks' := by
        constructor <;> simp [mallocate, hempty, hfs]
      rw [hres.1] at hret
      cases hret
      rw [hres.2]
      obtain ⟨c, hc, hcp, hcs⟩ := findAndSplit_capacity s.blocks ptr blocks' hfs
      exact ⟨c, hc, by simp [hcp, le_trans hna hcs]⟩
    | none =>
      cases g
      · have : (mallocate s false n).ret = none := by simp [mallocate, hempty, hfs]
        rw [this] at hret
        simp at hret
      · have hres : (mallocate s true n).ret = some (s.brk + ALIGNED_METADATA_SIZE) ∧
            (mallocate s true n).state.blocks =
              s.blocks ++ [{ addr := s.brk, size := align n, free := false }] := by
          constructor <;> simp [mallocate, hempty, hfs]
        rw [hres.1] at hret
        cases hret
        rw [hres.2]
        exact ⟨{ addr := s.brk, size := align n, free := false }, by simp,
          by simp [hna]⟩
  · cases g
    · have : (mallocate s false n).ret = none := by simp [mallocate, hempty]
      rw [this] at hret
      simp at hret
    · have hres : (mallocate s true n).ret = some (s.brk + ALIGNED_METADATA_SIZE) ∧
          (mallocate s true n).state.blocks =
            [{ addr := s.brk, size := align n, free := false }] := by
        constructor <;> simp [mallocate, hempty]
      rw [hres.1] at hret
      cases hret
      rw [hres.2]
      exact ⟨{ addr := s.brk, size := align n, free := false }, by simp,
        by simp [hna]⟩

/-- Witness for `mallocate_capacity`: `mallocate(20)` on a fresh heap
returns `4128` with at least 20 usable bytes there. -/
theorem mallocate_capacity_witness :
    hasCapacityAt (mallocate ⟨[], 4096, 4096⟩ true 20).state.blocks 4128 20 = true :=
  mallocate_capacity ⟨[], 4096, 4096⟩ true 20 4128
    (by rw [W_eq]; simp [ALIGNMENT]) (by decide)

/-! ## Claim theorems: release and coalescing (C4), unvalidated pointers (C10) -/

/-- The header scan finds exactly the block at position `front.length` when
no earlier block shares its address. -/
lemma findBlockIdx_append (front : List Block) (b : Block) (rest : List Block)
    (huniq : ∀ c ∈ front, c.addr ≠ b.addr) :
    findBlockIdx (front ++ b :: rest) b.addr = some front.length := by
  induction front with
  | nil => simp [findBlockIdx]
  | cons a f ih =>
    have ha : (a.addr == b.addr) = false := by
      simp [huniq a (by simp)]
    simp [findBlockIdx, ha, ih (fun c hc => huniq c (by simp [hc]))]

/-- The chain `coalesce` produces for a freed block is exactly the spec's
description `coalesceSpec`. -/
lemma coalesce_eq_spec (front : List Block) (b : Block) (rest : List Block) :
    (coalesce (front ++ { b with free := true } :: rest) front.length).1 =
      coalesceSpec front b rest := by
  unfold coalesceSpec
  cases hlast : front.getLast? with
  | none =>
    rw [coalesce_append_none front _ rest hlast]
  | some prev =>
    cases hpf : prev.free
    · rw [coalesce_append_notfree front _ rest prev hlast hpf]
      simp [hpf]
    · rw [coalesce_append_free front _ rest prev hlast hpf]
      simp [hpf]

/-- **C4.** Releasing a valid allocated pointer rewrites the chain to exactly
`coalesceSpec`: the freed block absorbs every consecutive Free successor
(the fold adding `headerSize + successor.size` per step), then is merged into
its immediate predecessor when that one is Free.  The C return value of
`coalesce` is the predecessor's position in that case and the block's own
position otherwise, and the merged block there is Free while the blocks
flanking it are not — the maximal free run touching the freed block is
represented by exactly one Free block. -/
theorem mfree_coalesce (s : AllocState) (front rest : List Block) (b : Block)
    (hblocks : s.blocks = front ++ b :: rest)
    (hbf : b.free = false)
    (hch : List.Chain' BothNotFree s.blocks)
    (huniq : ∀ c ∈ front, c.addr ≠ b.addr)
    (h0 : ¬ (b.addr + ALIGNED_METADATA_SIZE = 0))
    (hlo : s.heap_start ≤ b.addr + ALIGNED_METADATA_SIZE)
    (hhi : b.addr + ALIGNED_METADATA_SIZE < s.brk)
    (hal : is_aligned (b.addr + ALIGNED_METADATA_SIZE) = true) :
    mfree s (b.addr + ALIGNED_METADATA_SIZE) =
      some { s with blocks := coalesceSpec front b rest } ∧
    List.Chain' BothNotFree (coalesceSpec front b rest) ∧
    (absorbAll { b with free := true } (rest.takeWhile (·.free))).free = true ∧
    (∀ c ∈ (rest.dropWhile (·.free)).head?, c.free = false) ∧
    (∀ prev, front.getLast? = some prev → prev.free = true →
      (coalesce (s.blocks.set front.length { b with free := true })
          front.length).2 = front.length - 1 ∧
      (coalesceSpec front b rest)[front.length - 1]? =
        some { prev with size := addW prev.size (addW ALIGNED_METADATA_SIZE
          (absorbAll { b with free := true } (rest.takeWhile (·.free))).size) }) ∧
    ((∀ prev ∈ front.getLast?, prev.free = false) →
      (coalesce (s.blocks.set front.length { b with free := true })
          front.length).2 = front.length ∧
      (coalesceSpec front b rest)[front.length]? =
        some (absorbAll { b with free := true } (rest.takeWhile (·.free)))) := by
  have hrange : (decide (b.addr + ALIGNED_METADATA_SIZE < s.heap_start) ||
      decide (s.brk ≤ b.addr + ALIGNED_METADATA_SIZE)) = false := by
    simp only [Bool.or_eq_false_iff, decide_eq_false_iff_not]
    exact ⟨not_lt.mpr hlo, not_le.mpr hhi⟩
  have hnal : (!is_aligned (b.addr + ALIGNED_METADATA_SIZE)) = false := by
    simp [hal]
  have hsub : b.addr + ALIGNED_METADATA_SIZE - ALIGNED_METADATA_SIZE = b.addr := by
    omega
  have hfind : findBlockIdx s.blocks
      (b.addr + ALIGNED_METADATA_SIZE - ALIGNED_METADATA_SIZE) = some front.length := by
    rw [hsub, hblocks]
    exact findBlockIdx_append front b rest huniq
  have hget : s.blocks[front.length]? = some b := by
    rw [hblocks, List.getElem?_append_right (le_refl _)]
    simp
  have hset : s.blocks.set front.length { b with free := true } =
      front ++ { b with free := true } :: rest := by
    rw [hblocks]
    rw [List.set_eq_take_cons_drop _
      (by simp : front.length < (front ++ b :: rest).length)]
    rw [List.take_left]
    have hdr : (front ++ b :: rest).drop (front.length + 1) = rest := by
      rw [List.drop_append 1]
      simp
    rw [hdr]
  have hmf : mfree s (b.addr + ALIGNED_METADATA_SIZE) =
      some { s with blocks :=
        (coalesce (front ++ { b with free := true } :: rest) front.length).1 } := by
    unfold mfree
    rw [if_neg h0]
    rw [if_neg (by simp [hrange])]
    rw [if_neg (by simp [hnal])]
    rw [hfind]
    simp only [hget, hbf, Bool.false_eq_true, if_false, hset]
  have hchd : List.Chain' BothNotFree (front ++ b :: rest) := hblocks ▸ hch
  refine ⟨?_, ?_, ?_, head_dropWhile_free rest, ?_, ?_⟩
  · rw [hmf, coalesce_eq_spec]
  · have := coalesce_set_chain front b rest hchd
    rwa [coalesce_eq_spec] at this
  · rw [absorbAll_free]
  · intro prev hlast hpf
    constructor
    · rw [hset, coalesce_append_free front _ rest prev hlast hpf]
    · have hlen : front.dropLast.length = front.length - 1 :=
        List.length_dropLast front
      unfold coalesceSpec
      rw [hlast]
      simp only [hpf, if_true]
      rw [← hlen, List.getElem?_append_right (le_refl _)]
      simp
  · intro hprev
    constructor
    · cases hlast : front.getLast? with
      | none => rw [hset, coalesce_append_none front _ rest hlast]
      | some prev =>
        rw [hset, coalesce_append_notfree front _ rest prev hlast (hprev prev hlast)]
    · cases hlast : front.getLast? with
      | none =>
        unfold coalesceSpec
        rw [hlast]
        rw [List.getElem?_append_right (le_refl _)]
        simp
      | some prev =>
        unfold coalesceSpec
        rw [hlast]
        simp only [hprev prev hlast, Bool.false_eq_true, if_false]
        rw [List.getElem?_append_right (le_refl _)]
        simp

/-- Witness for `mfree_coalesce`: freeing the middle allocated block of a
five-block chain absorbs the free successor, then merges into the free
predecessor, collapsing three blocks into one 112-byte free block. -/
theorem mfree_coalesce_witness :
    mfree ⟨[⟨4096, 32, false⟩, ⟨4160, 16, true⟩, ⟨4208, 16, false⟩,
        ⟨4256, 16, true⟩, ⟨4304, 32, false⟩], 4096, 4368⟩ 4240 =
      some ⟨[⟨4096, 32, false⟩, ⟨4160, 112, true⟩, ⟨4304, 32, false⟩],
        4096, 4368⟩ := by
  have h := mfree_coalesce
    ⟨[⟨4096, 32, false⟩, ⟨4160, 16, true⟩, ⟨4208, 16, false⟩,
      ⟨4256, 16, true⟩, ⟨4304, 32, false⟩], 4096, 4368⟩
    [⟨4096, 32, false⟩, ⟨4160, 16, true⟩] [⟨4256, 16, true⟩, ⟨4304, 32, false⟩]
    ⟨4208, 16, false⟩
    rfl rfl (by simp [List.chain'_cons, BothNotFree]) (by decide) (by decide)
    (by decide) (by decide) (by decide)
  have hp : (4240 : Nat) = 4208 + ALIGNED_METADATA_SIZE := by decide
  rw [hp]
  exact h.1.trans (by decide)

/-- **C10.** `mfree` never checks that its pointer was returned by
`mallocate`.  In the state reached by a single 64-byte allocation (sole
block header at 4096, usable region `[4128, 4192)`, only returned pointer
4128), both the arena start 4096 and the interior aligned address 4176 pass
every validation check (non-null, in `[heap_start, brk)`, 16-aligned), yet
neither is a tracked usable-region pointer: the presumed header
`ptr - headerSize` lies at 4064 — outside the arena — respectively at 4144 —
inside the block's usable region.  `mfree` then reads and writes that
presumed header: the model returns `none`, its marker for this undefined
dereference of untracked memory. -/
theorem mfree_unchecked_pointer :
    (mallocate ⟨[], 4096, 4096⟩ true 64).state =
      ⟨[⟨4096, 64, false⟩], 4096, 4192⟩ ∧
    (mallocate ⟨[], 4096, 4096⟩ true 64).ret = some 4128 ∧
    (¬ (4096 : Nat) = 0 ∧ ¬ ((4096 : Nat) < 4096) ∧ (4096 : Nat) < 4192 ∧
      is_aligned 4096 = true ∧
      findBlockIdx [⟨4096, 64, false⟩] (4096 - ALIGNED_METADATA_SIZE) = none ∧
      4096 - ALIGNED_METADATA_SIZE < 4096) ∧
    (¬ (4176 : Nat) = 0 ∧ ¬ ((4176 : Nat) < 4096) ∧ (4176 : Nat) < 4192 ∧
      is_aligned 4176 = true ∧
      findBlockIdx [⟨4096, 64, false⟩] (4176 - ALIGNED_METADATA_SIZE) = none ∧
      4096 + ALIGNED_METADATA_SIZE ≤ 4176 - ALIGNED_METADATA_SIZE ∧
      4176 - ALIGNED_METADATA_SIZE < 4096 + ALIGNED_METADATA_SIZE + 64) ∧
    mfree ⟨[⟨4096, 64, false⟩], 4096, 4192⟩ 4096 = none ∧
    mfree ⟨[⟨4096, 64, false⟩], 4096, 4192⟩ 4176 = none := by
  refine ⟨by decide, by decide, by decide, by decide, by decide, by decide⟩
